import Mathlib

/-!
Verification of the `LazyMap` storage adapter
(`shared/src/ledger/storage_api/collections/lazy_map.rs`).

The adapter itself is embedded directly from the source.  Its collaborators
(the storage backend of spec section 6, the `storage::Key` path type and the
value codec) are external to the repository's sources and are modelled from
the spec, as noted on each definition.

Conventions of the embedding:
* Rust's `Result<T>` becomes `Except Err T`.
* The `.unwrap()` calls in `get_data_prefix` / `get_data_key` can panic;
  a panic is modelled as the outer `Option` of an operation being `none`.
* The backend records every primitive operation it performs in a ghost
  `log`, so that "exactly one read and one write" claims are statable.
-/

set_option autoImplicit false

namespace LazyMapVerif

/-- Modelled from the spec: the `storage::Key` path type (external to the
sources) is "an opaque, structured storage path"; we model it as a list of
string segments. -/
structure Key where
  segments : List String
  deriving DecidableEq

/-- Modelled from the spec: joining a path segment onto a key
(`storage::Key::push`) is external to the sources and fallible — the
`.unwrap()` calls in the adapter show it returns a `Result`.  Which segments
are valid is backend-defined, so validity is abstracted as a boolean
predicate `validSeg` supplied as a parameter. -/
def Key.push (validSeg : String → Bool) (k : Key) (seg : String) : Option Key :=
  if validSeg seg then some ⟨k.segments ++ [seg]⟩ else none

/-- Boolean test for `p.segments` being a list prefix of `k.segments`. -/
def segsLe : List String → List String → Bool
  | [], _ => true
  | _ :: _, [] => false
  | a :: as, b :: bs => a == b && segsLe as bs

/-- `keyLe p k`: the path `p` is an ancestor (or equal) of the path `k`. -/
def keyLe (p k : Key) : Bool :=
  segsLe p.segments k.segments

/-- Subkey corresponding to the data elements of the LazyMap
(`DATA_SUBKEY` in the source). -/
def DATA_SUBKEY : String := "data"

/-- The two error classes of spec section 7: opaque backend failures and
value decoding failures. -/
inductive Err
  | backendErr
  | decodeErr
  deriving DecidableEq

/-- Raw value bytes stored by the backend. -/
abbrev Bytes := List Nat

/-- A primitive backend operation, recorded in the ghost log. -/
inductive Op
  | readOp (k : Key)
  | writeOp (k : Key)
  | deleteOp (k : Key)
  | scanOp (k : Key)
  deriving DecidableEq

/-- The storage key a primitive backend operation touches. -/
def Op.key : Op → Key
  | Op.readOp k => k
  | Op.writeOp k => k
  | Op.deleteOp k => k
  | Op.scanOp k => k

/-- Modelled from the spec: the external key-value storage backend of spec
section 6.  `data` is the persistent association of storage keys to value
bytes; the `...Fail` fields inject the backend's own failures ("fails on
resource/backend error"); `log` is ghost instrumentation recording each
primitive call, used only to state side-effect claims. -/
structure Backend where
  data : List (Key × Bytes)
  readFail : Key → Bool
  writeFail : Key → Bool
  deleteFail : Key → Bool
  iterFail : Bool
  log : List Op

/-- First-match lookup in the backend's association list. -/
def lookupKey : List (Key × Bytes) → Key → Option Bytes
  | [], _ => none
  | (k₁, b) :: rest, k => if k₁ = k then some b else lookupKey rest k

/-- Store bytes at a key: replace the first matching entry in place, or
append a new entry at the end. -/
def setKey : List (Key × Bytes) → Key → Bytes → List (Key × Bytes)
  | [], k, b => [(k, b)]
  | (k₁, b₁) :: rest, k, b =>
    if k₁ = k then (k, b) :: rest else (k₁, b₁) :: setKey rest k b

/-- Delete every entry at a key (absence is not an error). -/
def removeKey : List (Key × Bytes) → Key → List (Key × Bytes)
  | [], _ => []
  | (k₁, b₁) :: rest, k =>
    if k₁ = k then removeKey rest k else (k₁, b₁) :: removeKey rest k

/-- The entries of an association list lying under a given path prefix, in
backend scan order (modelled as stored order). -/
def underPre (pre : Key) (l : List (Key × Bytes)) : List (Key × Bytes) :=
  l.filter (fun e => keyLe pre e.1)

/-- Modelled from the spec: `read(key) -> Option<bytes>, fails on
resource/backend error`.  The result is paired with the backend after the
call (only the ghost log changes). -/
def Backend.readBytes (s : Backend) (k : Key) : Except Err (Option Bytes) × Backend :=
  ((if s.readFail k then Except.error Err.backendErr
    else Except.ok (lookupKey s.data k)),
   { s with log := s.log ++ [Op.readOp k] })

/-- Modelled from the spec: `write(key, bytes) -> (), fails on
resource/backend error`. -/
def Backend.writeBytes (s : Backend) (k : Key) (b : Bytes) : Except Err Unit × Backend :=
  if s.writeFail k then
    (Except.error Err.backendErr, { s with log := s.log ++ [Op.writeOp k] })
  else
    (Except.ok (), { s with data := setKey s.data k b, log := s.log ++ [Op.writeOp k] })

/-- Modelled from the spec: `delete(key) -> (), fails on resource/backend
error` — an absent key is not an error. -/
def Backend.delete (s : Backend) (k : Key) : Except Err Unit × Backend :=
  if s.deleteFail k then
    (Except.error Err.backendErr, { s with log := s.log ++ [Op.deleteOp k] })
  else
    (Except.ok (), { s with data := removeKey s.data k, log := s.log ++ [Op.deleteOp k] })

/-- Modelled from the spec: the backend's prefix scan.  The cursor obtained
from `iter_prefix` together with the per-entry `iter_next` pulls is modelled
as the list of entries the scan will produce, in backend order. -/
def Backend.scanPre (s : Backend) (pre : Key) : Except Err (List (Key × Bytes)) × Backend :=
  ((if s.iterFail then Except.error Err.backendErr
    else Except.ok (underPre pre s.data)),
   { s with log := s.log ++ [Op.scanOp pre] })

/-- Modelled from the spec: the serialization codec for values (Borsh in the
sources, external to them): `enc` serializes a value, `dec` parses bytes and
may fail. -/
structure Codec (V : Type) where
  enc : V → Bytes
  dec : Bytes → Option V

/-- The adapter: holds only the collection's root storage key (`K` and `V`
are phantom in the source, so they appear only on the operations here). -/
structure LazyMap where
  key : Key

section Ops

variable {K V : Type}
variable (validSeg : String → Bool) (stringify : K → String) (c : Codec V)

/-- Embeds `LazyMap::get_data_prefix`: `self.key.push(&DATA_SUBKEY.to_owned()).unwrap()`.
The `.unwrap()` panic is the `none` case.  (Renamed from the source's
`get_data_prefix`.) -/
def get_data_pre (m : LazyMap) : Option Key :=
  m.key.push validSeg DATA_SUBKEY

/-- Embeds `LazyMap::get_data_key`: `self.get_data_prefix().push(&key.to_string()).unwrap()`.
`stringify` stands for `K`'s `Display` rendering `key.to_string()`. -/
def get_data_key (m : LazyMap) (k : K) : Option Key :=
  match get_data_pre validSeg m with
  | none => none
  | some pre => pre.push validSeg (stringify k)

/-- Embeds `LazyMap::read_key_val`: `storage.read(storage_key)`.  In the
source the generic `StorageRead::read` both fetches the bytes and Borsh-
decodes them into `V`; here that is the backend byte read followed by
`c.dec`, a decode failure being the `DecodeError` of spec section 7. -/
def read_key_val (s : Backend) (storage_key : Key) : Except Err (Option V) × Backend :=
  let r := Backend.readBytes s storage_key
  match r.1 with
  | Except.error e => (Except.error e, r.2)
  | Except.ok none => (Except.ok none, r.2)
  | Except.ok (some bs) =>
    match c.dec bs with
    | some v => (Except.ok (some v), r.2)
    | none => (Except.error Err.decodeErr, r.2)

/-- Embeds `LazyMap::write_key_val`: `storage.write(storage_key, val)` —
serialize and write. -/
def write_key_val (s : Backend) (storage_key : Key) (val : V) : Except Err Unit × Backend :=
  Backend.writeBytes s storage_key (c.enc val)

/-- Embeds `LazyMap::get`: compute the element key (panicking if the push
fails) and read it. -/
def LazyMap.get (m : LazyMap) (s : Backend) (k : K) :
    Option (Except Err (Option V) × Backend) :=
  match get_data_key validSeg stringify m k with
  | none => none
  | some data_key => some (read_key_val c s data_key)

/-- Embeds `LazyMap::insert`: `let previous = self.get(storage, &key)?;`
then recompute the data key and `Self::write_key_val(storage, &data_key, val)?;`,
returning `Ok(previous)`. -/
def LazyMap.insert (m : LazyMap) (s : Backend) (k : K) (v : V) :
    Option (Except Err (Option V) × Backend) :=
  match LazyMap.get validSeg stringify c m s k with
  | none => none
  | some res =>
    match res.1 with
    | Except.error e => some (Except.error e, res.2)
    | Except.ok previous =>
      match get_data_key validSeg stringify m k with
      | none => none
      | some data_key =>
        let w := write_key_val c res.2 data_key v
        match w.1 with
        | Except.error e => some (Except.error e, w.2)
        | Except.ok _ => some (Except.ok previous, w.2)

/-- Embeds `LazyMap::remove`: `let value = self.get(storage, key)?;` then
recompute the data key and `storage.delete(&data_key)?;`, returning
`Ok(value)`. -/
def LazyMap.remove (m : LazyMap) (s : Backend) (k : K) :
    Option (Except Err (Option V) × Backend) :=
  match LazyMap.get validSeg stringify c m s k with
  | none => none
  | some res =>
    match res.1 with
    | Except.error e => some (Except.error e, res.2)
    | Except.ok value =>
      match get_data_key validSeg stringify m k with
      | none => none
      | some data_key =>
        let d := Backend.delete res.2 data_key
        match d.1 with
        | Except.error e => some (Except.error e, d.2)
        | Except.ok _ => some (Except.ok value, d.2)

/-- Decode one scanned entry's bytes, as the unfold body of `LazyMap::iter`
does: `Ok` on success, a `DecodeError` item on failure. -/
def decItem (e : Key × Bytes) : Except Err V :=
  match c.dec e.2 with
  | some v => Except.ok v
  | none => Except.error Err.decodeErr

/-- Embeds `LazyMap::iter`: open a prefix scan over the data prefix
(panicking if the prefix push fails), then lazily decode each produced
entry's value bytes.  The produced items are values only — the logical key
is never reconstructed from the raw storage key. -/
def LazyMap.iter (m : LazyMap) (s : Backend) :
    Option (Except Err (List (Except Err V)) × Backend) :=
  match get_data_pre validSeg m with
  | none => none
  | some pre =>
    let r := Backend.scanPre s pre
    match r.1 with
    | Except.error e => some (Except.error e, r.2)
    | Except.ok entries => some (Except.ok (entries.map (decItem c)), r.2)

/-- Insert a list of key/value pairs left to right, requiring every insert
to succeed (no panic, no error). -/
def insertList (m : LazyMap) : Backend → List (K × V) → Option Backend
  | s, [] => some s
  | s, (k, v) :: rest =>
    match LazyMap.insert validSeg stringify c m s k v with
    | some (Except.ok _, s₁) => insertList m s₁ rest
    | _ => none

end Ops

/-- Concrete segment-validity predicate for concrete evaluations: a segment
is valid when it is nonempty and contains no path separator. -/
def segOk : String → Bool := fun s => !s.data.isEmpty && !(s.data.contains '/')

/-- Concrete value codec for concrete evaluations: a number encodes as a
one-element byte list; any other byte shape fails to decode. -/
def natCodec : Codec Nat where
  enc := fun n => [n]
  dec := fun bs =>
    match bs with
    | [n] => some n
    | _ => none

/-- Concrete map instance rooted at the path `root`. -/
def mW : LazyMap := ⟨⟨["root"]⟩⟩

/-- Empty, failure-free concrete backend. -/
def s0W : Backend := ⟨[], fun _ => false, fun _ => false, fun _ => false, false, []⟩

/-- Backend state after inserting `10` at key `alice` into `s0W`. -/
def s1W : Backend :=
  match LazyMap.insert segOk id natCodec mW s0W "alice" 10 with
  | some (_, s) => s
  | none => s0W

/-- Backend state after further inserting `99` at key `alice` into `s1W`. -/
def s2W : Backend :=
  match LazyMap.insert segOk id natCodec mW s1W "alice" 99 with
  | some (_, s) => s
  | none => s0W

/-- Backend state after removing key `alice` from `s1W`. -/
def s3W : Backend :=
  match LazyMap.remove segOk id natCodec mW s1W "alice" with
  | some (_, s) => s
  | none => s0W

/-- The insertion list used by the iteration witness. -/
def pairsW : List (String × Nat) := [("alice", 10), ("bob", 20)]

/-- Backend state after the two inserts of `pairsW` into `s0W`. -/
def s4W : Backend :=
  match insertList segOk id natCodec mW s0W pairsW with
  | some s => s
  | none => s0W

/-- A concrete backend holding one decodable and one corrupted entry under
the data prefix of `mW` (the bytes `[]` do not decode under `natCodec`). -/
def s5W : Backend :=
  ⟨[(⟨["root", "data", "alice"]⟩, [10]), (⟨["root", "data", "bob"]⟩, [])],
   fun _ => false, fun _ => false, fun _ => false, false, []⟩

/-- A concrete backend whose read at the `alice` element key of `mW` fails
with a backend error. -/
def s6W : Backend :=
  ⟨[], fun k => decide (k = ⟨["root", "data", "alice"]⟩),
   fun _ => false, fun _ => false, false, []⟩

/-- Backend state returned by a `get` of `alice` against `s6W` (only the
ghost log records the failed read). -/
def s7W : Backend :=
  match LazyMap.get segOk id natCodec mW s6W "alice" with
  | some (_, s) => s
  | none => s0W

/-- Backend state after removing the absent key `alice` from `s0W`. -/
def s8W : Backend :=
  match LazyMap.remove segOk id natCodec mW s0W "alice" with
  | some (_, s) => s
  | none => s1W

/-- String form of a pair key: only the first component is rendered, so two
pairs differing in the second component collide. -/
def pairStr : String × Nat → String := Prod.fst

/-- Backend state after inserting `10` at the pair key `(alice, 0)`. -/
def sP1 : Backend :=
  match LazyMap.insert segOk pairStr natCodec mW s0W ("alice", 0) 10 with
  | some (_, s) => s
  | none => s0W

/-- Backend state after further inserting `99` at the pair key `(alice, 1)`. -/
def sP2 : Backend :=
  match LazyMap.insert segOk pairStr natCodec mW sP1 ("alice", 1) 99 with
  | some (_, s) => s
  | none => s0W

/-- Boolean test for an iteration item being a successful one. -/
def isOkItem {V : Type} : Except Err V → Bool
  | Except.ok _ => true
  | Except.error _ => false

/-! Association-list lemmas about the modelled backend storage. -/

theorem lookup_setKey_self (l : List (Key × Bytes)) (k : Key) (b : Bytes) :
    lookupKey (setKey l k b) k = some b := by
  induction l with
  | nil => simp [setKey, lookupKey]
  | cons e rest ih =>
    obtain ⟨k₁, b₁⟩ := e
    by_cases h : k₁ = k
    · simp [setKey, h, lookupKey]
    · simp [setKey, h, lookupKey, ih]

theorem lookup_setKey_ne (l : List (Key × Bytes)) (k j : Key) (b : Bytes)
    (hne : j ≠ k) : lookupKey (setKey l k b) j = lookupKey l j := by
  induction l with
  | nil => simp [setKey, lookupKey, Ne.symm hne]
  | cons e rest ih =>
    obtain ⟨k₁, b₁⟩ := e
    by_cases h : k₁ = k
    · subst h
      simp [setKey, lookupKey, Ne.symm hne]
    · simp [setKey, h, lookupKey, ih]

theorem lookup_removeKey_self (l : List (Key × Bytes)) (k : Key) :
    lookupKey (removeKey l k) k = none := by
  induction l with
  | nil => simp [removeKey, lookupKey]
  | cons e rest ih =>
    obtain ⟨k₁, b₁⟩ := e
    by_cases h : k₁ = k
    · simp [removeKey, h, ih]
    · simp [removeKey, h, lookupKey, ih]

theorem lookup_removeKey_ne (l : List (Key × Bytes)) (k j : Key)
    (hne : j ≠ k) : lookupKey (removeKey l k) j = lookupKey l j := by
  induction l with
  | nil => simp [removeKey]
  | cons e rest ih =>
    obtain ⟨k₁, b₁⟩ := e
    by_cases h : k₁ = k
    · subst h
      simp [removeKey, lookupKey, Ne.symm hne, ih]
    · simp [removeKey, h, lookupKey, ih]

theorem removeKey_absent (l : List (Key × Bytes)) (k : Key)
    (h : lookupKey l k = none) : removeKey l k = l := by
  induction l with
  | nil => simp [removeKey]
  | cons e rest ih =>
    obtain ⟨k₁, b₁⟩ := e
    by_cases hk : k₁ = k
    · simp [lookupKey, hk] at h
    · simp [lookupKey, hk] at h
      simp [removeKey, hk, ih h]

theorem setKey_absent (l : List (Key × Bytes)) (k : Key) (b : Bytes)
    (h : lookupKey l k = none) : setKey l k b = l ++ [(k, b)] := by
  induction l with
  | nil => simp [setKey]
  | cons e rest ih =>
    obtain ⟨k₁, b₁⟩ := e
    by_cases hk : k₁ = k
    · simp [lookupKey, hk] at h
    · simp [lookupKey, hk] at h
      simp [setKey, hk, ih h]

theorem underPre_append (pre : Key) (l₁ l₂ : List (Key × Bytes)) :
    underPre pre (l₁ ++ l₂) = underPre pre l₁ ++ underPre pre l₂ := by
  simp [underPre, List.filter_append]

theorem segsLe_self_append (l m : List String) : segsLe l (l ++ m) = true := by
  induction l with
  | nil => simp [segsLe]
  | cons a as ih => simp [segsLe, ih]

theorem lookup_underPre (pre k : Key) (h : keyLe pre k = true)
    (l : List (Key × Bytes)) :
    lookupKey (underPre pre l) k = lookupKey l k := by
  induction l with
  | nil => simp [underPre]
  | cons e rest ih =>
    obtain ⟨k₁, b₁⟩ := e
    by_cases hp : keyLe pre k₁ = true
    · simp [underPre, List.filter_cons, hp] at ih ⊢
      simp [lookupKey, ih]
    · have hk : k₁ ≠ k := by
        intro he
        rw [he] at hp
        exact hp h
      simp [underPre, List.filter_cons, hp] at ih ⊢
      simp [lookupKey, hk, ih]

/-! Key-derivation lemmas. -/

section DerivLemmas

variable {K V : Type}
variable (validSeg : String → Bool) (stringify : K → String) (c : Codec V)

theorem get_data_pre_inv (m : LazyMap) (pre : Key)
    (h : get_data_pre validSeg m = some pre) :
    validSeg DATA_SUBKEY = true ∧ pre = ⟨m.key.segments ++ [DATA_SUBKEY]⟩ := by
  unfold get_data_pre Key.push at h
  split at h
  · cases h
    exact ⟨by assumption, rfl⟩
  · cases h

theorem get_data_key_inv (m : LazyMap) (k : K) (dk : Key)
    (h : get_data_key validSeg stringify m k = some dk) :
    ∃ pre, get_data_pre validSeg m = some pre ∧
      validSeg (stringify k) = true ∧
      dk = ⟨pre.segments ++ [stringify k]⟩ := by
  unfold get_data_key Key.push at h
  cases hp : get_data_pre validSeg m with
  | none => simp [hp] at h
  | some pre =>
    simp only [hp] at h
    by_cases hv : validSeg (stringify k) = true
    · rw [if_pos hv] at h
      cases h
      exact ⟨pre, rfl, hv, rfl⟩
    · rw [if_neg hv] at h
      cases h

theorem get_data_key_congr (m : LazyMap) (k₁ k₂ : K)
    (h : stringify k₁ = stringify k₂) :
    get_data_key validSeg stringify m k₁ = get_data_key validSeg stringify m k₂ := by
  unfold get_data_key
  rw [h]

theorem keyLe_pre_data_key (m : LazyMap) (k : K) (pre dk : Key)
    (hp : get_data_pre validSeg m = some pre)
    (h : get_data_key validSeg stringify m k = some dk) :
    keyLe pre dk = true ∧ dk = ⟨pre.segments ++ [stringify k]⟩ := by
  obtain ⟨pre₁, hp₁, hv, hdk⟩ := get_data_key_inv validSeg stringify m k dk h
  rw [hp] at hp₁
  cases hp₁
  subst hdk
  exact ⟨segsLe_self_append _ _, rfl⟩

end DerivLemmas

/-! Operation characterization lemmas. -/

section OpLemmas

variable {K V : Type}
variable (validSeg : String → Bool) (stringify : K → String) (c : Codec V)

theorem read_key_val_snd (s : Backend) (dk : Key) :
    (read_key_val c s dk).2 = { s with log := s.log ++ [Op.readOp dk] } := by
  by_cases hrf : s.readFail dk
  · simp [read_key_val, Backend.readBytes, hrf]
  · cases hl : lookupKey s.data dk with
    | none => simp [read_key_val, Backend.readBytes, hrf, hl]
    | some bs =>
      cases hd : c.dec bs <;> simp [read_key_val, Backend.readBytes, hrf, hl, hd]

theorem read_key_val_of_some (s : Backend) (dk : Key) (bs : Bytes) (v : V)
    (hrf : s.readFail dk = false) (hl : lookupKey s.data dk = some bs)
    (hd : c.dec bs = some v) :
    read_key_val c s dk
      = (Except.ok (some v), { s with log := s.log ++ [Op.readOp dk] }) := by
  simp [read_key_val, Backend.readBytes, hrf, hl, hd]

theorem read_key_val_of_none (s : Backend) (dk : Key)
    (hrf : s.readFail dk = false) (hl : lookupKey s.data dk = none) :
    read_key_val c s dk
      = (Except.ok none, { s with log := s.log ++ [Op.readOp dk] }) := by
  simp [read_key_val, Backend.readBytes, hrf, hl]

theorem read_key_val_ok_inv (s : Backend) (dk : Key) (prev : Option V)
    (h : (read_key_val c s dk).1 = Except.ok prev) :
    s.readFail dk = false ∧
    ((lookupKey s.data dk = none ∧ prev = none) ∨
     (∃ bs v, lookupKey s.data dk = some bs ∧ c.dec bs = some v ∧
        prev = some v)) := by
  by_cases hrf : s.readFail dk
  · simp [read_key_val, Backend.readBytes, hrf] at h
  · cases hl : lookupKey s.data dk with
    | none =>
      simp [read_key_val, Backend.readBytes, hrf, hl] at h
      exact ⟨by simpa using hrf, Or.inl ⟨rfl, h.symm⟩⟩
    | some bs =>
      cases hd : c.dec bs with
      | none => simp [read_key_val, Backend.readBytes, hrf, hl, hd] at h
      | some v =>
        simp [read_key_val, Backend.readBytes, hrf, hl, hd] at h
        exact ⟨by simpa using hrf, Or.inr ⟨bs, v, rfl, hd, h.symm⟩⟩

theorem get_eq_some (m : LazyMap) (s : Backend) (k : K) (dk : Key)
    (hdk : get_data_key validSeg stringify m k = some dk) :
    LazyMap.get validSeg stringify c m s k = some (read_key_val c s dk) := by
  unfold LazyMap.get
  rw [hdk]

theorem get_eq_none (m : LazyMap) (s : Backend) (k : K)
    (hdk : get_data_key validSeg stringify m k = none) :
    LazyMap.get validSeg stringify c m s k = none := by
  unfold LazyMap.get
  rw [hdk]

theorem insert_ok_inv (m : LazyMap) (s s₂ : Backend) (k : K) (v : V)
    (prev : Option V)
    (h : LazyMap.insert validSeg stringify c m s k v = some (Except.ok prev, s₂)) :
    ∃ dk, get_data_key validSeg stringify m k = some dk ∧
      (read_key_val c s dk).1 = Except.ok prev ∧
      s.readFail dk = false ∧
      s.writeFail dk = false ∧
      s₂ = { s with data := setKey s.data dk (c.enc v),
                    log := s.log ++ [Op.readOp dk, Op.writeOp dk] } := by
  cases hdk : get_data_key validSeg stringify m k with
  | none =>
    simp only [LazyMap.insert, get_eq_none validSeg stringify c m s k hdk] at h
    cases h
  | some dk =>
    simp only [LazyMap.insert, get_eq_some validSeg stringify c m s k dk hdk,
      hdk] at h
    rw [read_key_val_snd c s dk] at h
    cases hr : (read_key_val c s dk).1 with
    | error e => simp [hr] at h
    | ok previous =>
      simp only [hr] at h
      by_cases hwf : s.writeFail dk = true
      · simp [write_key_val, Backend.writeBytes, hwf] at h
      · simp only [write_key_val, Backend.writeBytes, Bool.not_eq_true] at h hwf
        simp [hwf, Prod.ext_iff] at h
        obtain ⟨h₁, h₂⟩ := h
        refine ⟨dk, rfl, ?_, ?_, hwf, ?_⟩
        · rw [hr, h₁]
        · exact (read_key_val_ok_inv c s dk previous hr).1
        · rw [← h₂]

theorem remove_ok_inv (m : LazyMap) (s s₂ : Backend) (k : K)
    (value : Option V)
    (h : LazyMap.remove validSeg stringify c m s k = some (Except.ok value, s₂)) :
    ∃ dk, get_data_key validSeg stringify m k = some dk ∧
      (read_key_val c s dk).1 = Except.ok value ∧
      s.readFail dk = false ∧
      s.deleteFail dk = false ∧
      s₂ = { s with data := removeKey s.data dk,
                    log := s.log ++ [Op.readOp dk, Op.deleteOp dk] } := by
  cases hdk : get_data_key validSeg stringify m k with
  | none =>
    simp only [LazyMap.remove, get_eq_none validSeg stringify c m s k hdk] at h
    cases h
  | some dk =>
    simp only [LazyMap.remove, get_eq_some validSeg stringify c m s k dk hdk,
      hdk] at h
    rw [read_key_val_snd c s dk] at h
    cases hr : (read_key_val c s dk).1 with
    | error e => simp [hr] at h
    | ok v₀ =>
      simp only [hr] at h
      by_cases hdf : s.deleteFail dk = true
      · simp [Backend.delete, hdf] at h
      · simp only [Backend.delete, Bool.not_eq_true] at h hdf
        simp [hdf, Prod.ext_iff] at h
        obtain ⟨h₁, h₂⟩ := h
        refine ⟨dk, rfl, ?_, ?_, hdf, ?_⟩
        · rw [hr, h₁]
        · exact (read_key_val_ok_inv c s dk v₀ hr).1
        · rw [← h₂]

theorem get_err_inv (m : LazyMap) (s s₁ : Backend) (k : K) (e : Err)
    (h : LazyMap.get validSeg stringify c m s k = some (Except.error e, s₁)) :
    ∃ dk, get_data_key validSeg stringify m k = some dk ∧
      (read_key_val c s dk).1 = Except.error e ∧
      s₁ = { s with log := s.log ++ [Op.readOp dk] } := by
  cases hdk : get_data_key validSeg stringify m k with
  | none =>
    rw [get_eq_none validSeg stringify c m s k hdk] at h
    cases h
  | some dk =>
    rw [get_eq_some validSeg stringify c m s k dk hdk] at h
    injection h with h₁
    have h₂ : s₁ = (read_key_val c s dk).2 := by rw [h₁]
    rw [read_key_val_snd] at h₂
    exact ⟨dk, rfl, by rw [h₁], h₂⟩

theorem insert_of_get_err (m : LazyMap) (s s₁ : Backend) (k : K) (v : V)
    (e : Err)
    (h : LazyMap.get validSeg stringify c m s k = some (Except.error e, s₁)) :
    LazyMap.insert validSeg stringify c m s k v = some (Except.error e, s₁) := by
  simp [LazyMap.insert, h]

theorem remove_of_get_err (m : LazyMap) (s s₁ : Backend) (k : K) (e : Err)
    (h : LazyMap.get validSeg stringify c m s k = some (Except.error e, s₁)) :
    LazyMap.remove validSeg stringify c m s k = some (Except.error e, s₁) := by
  simp [LazyMap.remove, h]

theorem get_fst_inv (m : LazyMap) (s : Backend) (k : K)
    (r : Except Err (Option V))
    (h : (LazyMap.get validSeg stringify c m s k).map Prod.fst = some r) :
    ∃ dk, get_data_key validSeg stringify m k = some dk ∧
      (read_key_val c s dk).1 = r := by
  cases hdk : get_data_key validSeg stringify m k with
  | none =>
    rw [get_eq_none validSeg stringify c m s k hdk] at h
    cases h
  | some dk =>
    rw [get_eq_some validSeg stringify c m s k dk hdk] at h
    simp at h
    exact ⟨dk, rfl, h⟩

theorem get_fst_of (m : LazyMap) (s : Backend) (k : K) (dk : Key)
    (r : Except Err (Option V))
    (hdk : get_data_key validSeg stringify m k = some dk)
    (hr : (read_key_val c s dk).1 = r) :
    (LazyMap.get validSeg stringify c m s k).map Prod.fst = some r := by
  rw [get_eq_some validSeg stringify c m s k dk hdk]
  simp [hr]

theorem insertList_under (m : LazyMap) (pre : Key)
    (hpre : get_data_pre validSeg m = some pre) :
    ∀ (kvs : List (K × V)) (s s₁ : Backend),
      insertList validSeg stringify c m s kvs = some s₁ →
      kvs.Pairwise (fun a b => stringify a.1 ≠ stringify b.1) →
      (∀ kv ∈ kvs,
        lookupKey s.data ⟨pre.segments ++ [stringify kv.1]⟩ = none) →
      underPre pre s₁.data
        = underPre pre s.data
          ++ kvs.map (fun kv =>
              ((⟨pre.segments ++ [stringify kv.1]⟩ : Key), c.enc kv.2)) ∧
      s₁.iterFail = s.iterFail := by
  intro kvs
  induction kvs with
  | nil =>
    intro s s₁ h _ _
    simp only [insertList] at h
    cases h
    simp
  | cons kv rest ih =>
    intro s s₁ h hpw hlk
    obtain ⟨k, v⟩ := kv
    simp only [insertList] at h
    cases hins : LazyMap.insert validSeg stringify c m s k v with
    | none => rw [hins] at h; cases h
    | some r =>
      obtain ⟨r₁, sB⟩ := r
      rw [hins] at h
      cases r₁ with
      | error e => cases h
      | ok p =>
        obtain ⟨dk, hdk, hr, hrf, hwf, hsB⟩ :=
          insert_ok_inv validSeg stringify c m s sB k v p hins
        obtain ⟨hle, hdkEq⟩ :=
          keyLe_pre_data_key validSeg stringify m k pre dk hpre hdk
        have hnone : lookupKey s.data dk = none := by
          rw [hdkEq]
          exact hlk (k, v) (List.mem_cons_self _ _)
        have hdata : sB.data = s.data ++ [(dk, c.enc v)] := by
          rw [hsB]
          exact setKey_absent s.data dk (c.enc v) hnone
        have hiter : sB.iterFail = s.iterFail := by rw [hsB]
        have hpw₁ := (List.pairwise_cons.mp hpw).2
        have hhd := (List.pairwise_cons.mp hpw).1
        have hlk₁ : ∀ kv ∈ rest,
            lookupKey sB.data ⟨pre.segments ++ [stringify kv.1]⟩ = none := by
          intro kv₂ hm
          have hne : (⟨pre.segments ++ [stringify kv₂.1]⟩ : Key) ≠ dk := by
            rw [hdkEq]
            intro he
            have : stringify kv₂.1 = stringify k := by
              have := congrArg Key.segments he
              simpa using this
            exact hhd kv₂ hm this.symm
          rw [hsB]
          rw [lookup_setKey_ne s.data dk _ (c.enc v) hne]
          exact hlk kv₂ (List.mem_cons_of_mem _ hm)
        obtain ⟨hu, hi⟩ := ih sB s₁ h hpw₁ hlk₁
        constructor
        · rw [hu, hdata, underPre_append]
          have hone : underPre pre [(dk, c.enc v)] = [(dk, c.enc v)] := by
            simp [underPre, List.filter_cons, hle]
          rw [hone, hdkEq]
          simp
        · rw [hi, hiter]

theorem map_decItem_enc (pre : Key) :
    ∀ kvs : List (K × V),
      (∀ kv ∈ kvs, c.dec (c.enc kv.2) = some kv.2) →
      (kvs.map (fun kv =>
          ((⟨pre.segments ++ [stringify kv.1]⟩ : Key), c.enc kv.2))).map (decItem c)
        = kvs.map (fun kv => Except.ok kv.2) := by
  intro kvs
  induction kvs with
  | nil => intro _; simp
  | cons kv rest ih =>
    intro hrt
    have hd := hrt kv (List.mem_cons_self _ _)
    have hrest := fun e he => hrt e (List.mem_cons_of_mem _ he)
    simp only [List.map_cons]
    rw [ih hrest]
    simp [decItem, hd]

theorem countP_decItem_ok :
    ∀ l : List (Key × Bytes),
      (∀ e ∈ l, ∃ v, c.dec e.2 = some v) →
      ((l.map (decItem c)).countP fun it => isOkItem it) = l.length := by
  intro l
  induction l with
  | nil => intro _; simp
  | cons e rest ih =>
    intro hg
    obtain ⟨v, hv⟩ := hg e (List.mem_cons_self _ _)
    have hrest := fun e₂ he => hg e₂ (List.mem_cons_of_mem _ he)
    simp only [List.map_cons, List.countP_cons]
    rw [ih hrest]
    simp [decItem, hv, isOkItem]

theorem countP_decItem_err :
    ∀ l : List (Key × Bytes),
      (∀ e ∈ l, ∃ v, c.dec e.2 = some v) →
      ((l.map (decItem c)).countP fun it => !(isOkItem it)) = 0 := by
  intro l
  induction l with
  | nil => intro _; simp
  | cons e rest ih =>
    intro hg
    obtain ⟨v, hv⟩ := hg e (List.mem_cons_self _ _)
    have hrest := fun e₂ he => hg e₂ (List.mem_cons_of_mem _ he)
    simp only [List.map_cons, List.countP_cons]
    rw [ih hrest]
    simp [decItem, hv, isOkItem]

theorem iter_eq_some (m : LazyMap) (s : Backend) (pre : Key)
    (hpre : get_data_pre validSeg m = some pre)
    (hif : s.iterFail = false) :
    (LazyMap.iter validSeg c m s).map Prod.fst
      = some (Except.ok ((underPre pre s.data).map (decItem c))) := by
  unfold LazyMap.iter
  rw [hpre]
  simp [Backend.scanPre, hif]

end OpLemmas

/-! The claims. -/

/-- C1: for every key `k` and value `v`, after a successful
`insert(storage, k, v)` on a `LazyMap`, a subsequent `get(storage, k)` on
the same map (same root key) returns `Some(v)` — given that the value codec
round-trips on `v`, which Borsh guarantees. -/
theorem C1_insert_get_round_trip {K V : Type} (validSeg : String → Bool)
    (stringify : K → String) (c : Codec V) (m : LazyMap) (s s₂ : Backend)
    (k : K) (v : V) (prev : Option V)
    (hrt : c.dec (c.enc v) = some v)
    (h : LazyMap.insert validSeg stringify c m s k v = some (Except.ok prev, s₂)) :
    (LazyMap.get validSeg stringify c m s₂ k).map Prod.fst
      = some (Except.ok (some v)) := by
  obtain ⟨dk, hdk, hr, hrf, hwf, hs⟩ :=
    insert_ok_inv validSeg stringify c m s s₂ k v prev h
  subst hs
  rw [get_eq_some validSeg stringify c m _ k dk hdk]
  simp [read_key_val, Backend.readBytes, hrf, hrt, lookup_setKey_self]

/-- C2: `insert` returns the value previously stored at the incoming key,
read before the write: if no entry exists at `element_key(k)`, a successful
`insert(storage, k, v1)` returns `None`; after it, a successful
`insert(storage, k, v2)` returns `Some(v1)`. -/
theorem C2_previous_value_contract {K V : Type} (validSeg : String → Bool)
    (stringify : K → String) (c : Codec V) (m : LazyMap)
    (s s₁ s₂ : Backend) (k : K) (v₁ v₂ : V) (p₁ p₂ : Option V) (dk : Key)
    (hdk : get_data_key validSeg stringify m k = some dk) :
    (lookupKey s.data dk = none →
      LazyMap.insert validSeg stringify c m s k v₁ = some (Except.ok p₁, s₁) →
      p₁ = none) ∧
    (LazyMap.insert validSeg stringify c m s k v₁ = some (Except.ok p₁, s₁) →
      c.dec (c.enc v₁) = some v₁ →
      LazyMap.insert validSeg stringify c m s₁ k v₂ = some (Except.ok p₂, s₂) →
      p₂ = some v₁) := by
  constructor
  · intro hlk h
    obtain ⟨dk₂, hdk₂, hr, _, _, _⟩ :=
      insert_ok_inv validSeg stringify c m s s₁ k v₁ p₁ h
    rw [hdk] at hdk₂
    injection hdk₂ with hE
    subst hE
    obtain ⟨_, hcases⟩ := read_key_val_ok_inv c s dk p₁ hr
    cases hcases with
    | inl hc => exact hc.2
    | inr hc =>
      obtain ⟨bs, v, hbs, _, _⟩ := hc
      rw [hlk] at hbs
      cases hbs
  · intro h₁ hrt h₂
    obtain ⟨dkA, hdkA, hrA, _, _, hsA⟩ :=
      insert_ok_inv validSeg stringify c m s s₁ k v₁ p₁ h₁
    rw [hdk] at hdkA
    injection hdkA with hA
    subst hA
    obtain ⟨dkB, hdkB, hrB, _, _, _⟩ :=
      insert_ok_inv validSeg stringify c m s₁ s₂ k v₂ p₂ h₂
    rw [hdk] at hdkB
    injection hdkB with hB
    subst hB
    obtain ⟨_, hcases⟩ := read_key_val_ok_inv c s₁ dk p₂ hrB
    cases hcases with
    | inl hc =>
      obtain ⟨hlkB, _⟩ := hc
      rw [hsA] at hlkB
      simp [lookup_setKey_self] at hlkB
    | inr hc =>
      obtain ⟨bs, v, hbs, hdec, hp⟩ := hc
      rw [hsA] at hbs
      simp [lookup_setKey_self] at hbs
      subst hbs
      rw [hrt] at hdec
      injection hdec with hv
      rw [hp, hv]

/-- C3: `remove` on a present key returns `Some` of the stored value and a
following `get` returns `None`; `remove` on an absent key returns `None`,
succeeds (absence is not an error), and leaves the backend data unchanged. -/
theorem C3_remove_contract {K V : Type} (validSeg : String → Bool)
    (stringify : K → String) (c : Codec V) (m : LazyMap)
    (s s₂ : Backend) (k : K) (v : V) (r : Option V) :
    ((LazyMap.get validSeg stringify c m s k).map Prod.fst
        = some (Except.ok (some v)) →
      LazyMap.remove validSeg stringify c m s k = some (Except.ok r, s₂) →
      r = some v ∧
      (LazyMap.get validSeg stringify c m s₂ k).map Prod.fst
        = some (Except.ok none)) ∧
    ((LazyMap.get validSeg stringify c m s k).map Prod.fst
        = some (Except.ok none) →
      LazyMap.remove validSeg stringify c m s k = some (Except.ok r, s₂) →
      r = none ∧ s₂.data = s.data) := by
  constructor
  · intro hget hrem
    obtain ⟨dk, hdk, hr₁⟩ := get_fst_inv validSeg stringify c m s k _ hget
    obtain ⟨dk₂, hdk₂, hr₂, hrf, hdf, hs₂⟩ :=
      remove_ok_inv validSeg stringify c m s s₂ k r hrem
    rw [hdk] at hdk₂
    injection hdk₂ with hE
    subst hE
    have hrv := hr₂.symm.trans hr₁
    injection hrv with hrv
    refine ⟨hrv, ?_⟩
    subst hs₂
    rw [get_eq_some validSeg stringify c m _ k dk hdk]
    simp [read_key_val, Backend.readBytes, hrf, lookup_removeKey_self]
  · intro hget hrem
    obtain ⟨dk, hdk, hr₁⟩ := get_fst_inv validSeg stringify c m s k _ hget
    obtain ⟨dk₂, hdk₂, hr₂, hrf, hdf, hs₂⟩ :=
      remove_ok_inv validSeg stringify c m s s₂ k r hrem
    rw [hdk] at hdk₂
    injection hdk₂ with hE
    subst hE
    obtain ⟨_, hc⟩ := read_key_val_ok_inv c s dk none hr₁
    have hlk : lookupKey s.data dk = none := by
      cases hc with
      | inl h₀ => exact h₀.1
      | inr h₀ =>
        obtain ⟨bs, v₀, _, _, hpv⟩ := h₀
        cases hpv
    have hrn := hr₂.symm.trans hr₁
    injection hrn with hrn
    refine ⟨hrn, ?_⟩
    subst hs₂
    exact removeKey_absent s.data dk hlk

/-- C4: the physical storage key used for element `k` is
`root_key / "data" / stringify(k)`, and it is a pure, deterministic function
of only the map's root key and `stringify(k)` (it takes no backend state at
all); in particular `get` reads exactly at that derived key in every backend
state. -/
theorem C4_element_key_layout {K V : Type} (validSeg : String → Bool)
    (stringify : K → String) (c : Codec V) (m : LazyMap) (k : K) (dk : Key)
    (h : get_data_key validSeg stringify m k = some dk) :
    dk.segments = m.key.segments ++ [DATA_SUBKEY, stringify k] ∧
    (∀ k₂ : K, stringify k₂ = stringify k →
      get_data_key validSeg stringify m k₂ = some dk) ∧
    (∀ m₂ : LazyMap, m₂.key = m.key →
      get_data_key validSeg stringify m₂ k = some dk) ∧
    (∀ s : Backend,
      LazyMap.get validSeg stringify c m s k = some (read_key_val c s dk)) := by
  obtain ⟨pre, hpre, hv, hdkEq⟩ := get_data_key_inv validSeg stringify m k dk h
  obtain ⟨hvd, hpreEq⟩ := get_data_pre_inv validSeg m pre hpre
  refine ⟨?_, ?_, ?_, ?_⟩
  · subst hdkEq
    subst hpreEq
    simp
  · intro k₂ hk
    rw [get_data_key_congr validSeg stringify m k₂ k hk]
    exact h
  · intro m₂ hm
    have hmm : m₂ = m := by
      cases m₂
      cases m
      cases hm
      rfl
    rw [hmm]
    exact h
  · intro s
    exact get_eq_some validSeg stringify c m s k dk h

/-- C5: keys whose string forms coincide address the same physical slot:
after `insert(k1, v1)` and then `insert(k2, v2)` with
`stringify(k1) = stringify(k2)`, a `get(k1)` returns `Some(v2)` — the second
insert silently overwrote the first, with no collision detection. -/
theorem C5_collision_by_string_form {K V : Type} (validSeg : String → Bool)
    (stringify : K → String) (c : Codec V) (m : LazyMap)
    (s s₁ s₂ : Backend) (k₁ k₂ : K) (v₁ v₂ : V) (p₁ p₂ : Option V)
    (hstr : stringify k₁ = stringify k₂)
    (_h₁ : LazyMap.insert validSeg stringify c m s k₁ v₁ = some (Except.ok p₁, s₁))
    (h₂ : LazyMap.insert validSeg stringify c m s₁ k₂ v₂ = some (Except.ok p₂, s₂))
    (hrt : c.dec (c.enc v₂) = some v₂) :
    (LazyMap.get validSeg stringify c m s₂ k₁).map Prod.fst
      = some (Except.ok (some v₂)) := by
  obtain ⟨dk, hdk, _, hrf, _, hs₂⟩ :=
    insert_ok_inv validSeg stringify c m s₁ s₂ k₂ v₂ p₂ h₂
  have hdk₁ : get_data_key validSeg stringify m k₁ = some dk := by
    rw [get_data_key_congr validSeg stringify m k₁ k₂ hstr]
    exact hdk
  subst hs₂
  rw [get_eq_some validSeg stringify c m _ k₁ dk hdk₁]
  simp [read_key_val, Backend.readBytes, hrf, hrt, lookup_setKey_self]

/-- C6: after successfully inserting `N` keys that are pairwise distinct by
string form into a map whose data region started empty, `iter` yields
exactly `N` successful items, each one of the stored values (in the
backend's scan order); the items are values only — no key is
reconstructed. -/
theorem C6_iteration_completeness {K V : Type} (validSeg : String → Bool)
    (stringify : K → String) (c : Codec V) (m : LazyMap) (pre : Key)
    (s s₁ : Backend) (kvs : List (K × V))
    (hpre : get_data_pre validSeg m = some pre)
    (h : insertList validSeg stringify c m s kvs = some s₁)
    (hpw : kvs.Pairwise fun a b => stringify a.1 ≠ stringify b.1)
    (hempty : underPre pre s.data = [])
    (hif : s.iterFail = false)
    (hrt : ∀ kv ∈ kvs, c.dec (c.enc kv.2) = some kv.2) :
    (LazyMap.iter validSeg c m s₁).map Prod.fst
      = some (Except.ok (kvs.map fun kv => Except.ok kv.2)) := by
  have hlk : ∀ kv ∈ kvs,
      lookupKey s.data ⟨pre.segments ++ [stringify kv.1]⟩ = none := by
    intro kv _
    have hle : keyLe pre ⟨pre.segments ++ [stringify kv.1]⟩ = true :=
      segsLe_self_append _ _
    rw [← lookup_underPre pre _ hle s.data, hempty]
    rfl
  obtain ⟨hu, hi⟩ :=
    insertList_under validSeg stringify c m pre hpre kvs s s₁ h hpw hlk
  rw [iter_eq_some validSeg c m s₁ pre hpre (by rw [hi, hif])]
  rw [hu, hempty]
  simp only [List.nil_append]
  rw [map_decItem_enc stringify c pre kvs hrt]

/-- C7: a value that fails to decode during iteration produces an
`Err(DecodeError)` item for that element only and does not terminate the
sequence — later entries are still produced; with one corrupted entry among
`N`, `iter` yields `N-1` `Ok` items and exactly one `Err` item. -/
theorem C7_decode_failure_localized {V : Type} (validSeg : String → Bool)
    (c : Codec V) (m : LazyMap) (s : Backend) (pre bk : Key) (bb : Bytes)
    (es₁ es₂ : List (Key × Bytes))
    (hpre : get_data_pre validSeg m = some pre)
    (hif : s.iterFail = false)
    (hsplit : underPre pre s.data = es₁ ++ (bk, bb) :: es₂)
    (hbad : c.dec bb = none)
    (hg₁ : ∀ e ∈ es₁, ∃ v, c.dec e.2 = some v)
    (hg₂ : ∀ e ∈ es₂, ∃ v, c.dec e.2 = some v) :
    (LazyMap.iter validSeg c m s).map Prod.fst
      = some (Except.ok (es₁.map (decItem c)
          ++ Except.error Err.decodeErr :: es₂.map (decItem c))) ∧
    ((es₁.map (decItem c)
        ++ Except.error Err.decodeErr :: es₂.map (decItem c)).countP
        (fun it => isOkItem it) = es₁.length + es₂.length) ∧
    ((es₁.map (decItem c)
        ++ Except.error Err.decodeErr :: es₂.map (decItem c)).countP
        (fun it => !(isOkItem it)) = 1) := by
  refine ⟨?_, ?_, ?_⟩
  · rw [iter_eq_some validSeg c m s pre hpre hif, hsplit]
    simp [decItem, hbad]
  · rw [List.countP_append, List.countP_cons]
    rw [countP_decItem_ok c es₁ hg₁, countP_decItem_ok c es₂ hg₂]
    simp [isOkItem]
  · rw [List.countP_append, List.countP_cons]
    rw [countP_decItem_err c es₁ hg₁, countP_decItem_err c es₂ hg₂]
    simp [isOkItem]

/-- C8: a successful `insert(storage, k, v)` performs exactly one backend
read followed by exactly one backend write, both at `element_key(k)`, and
changes no backend slot other than `element_key(k)` (nor any failure
behavior of the backend); the replacement is that single write call. -/
theorem C8_insert_side_effects {K V : Type} (validSeg : String → Bool)
    (stringify : K → String) (c : Codec V) (m : LazyMap)
    (s s₂ : Backend) (k : K) (v : V) (prev : Option V) (dk : Key)
    (hdk : get_data_key validSeg stringify m k = some dk)
    (h : LazyMap.insert validSeg stringify c m s k v = some (Except.ok prev, s₂)) :
    s₂.log = s.log ++ [Op.readOp dk, Op.writeOp dk] ∧
    lookupKey s₂.data dk = some (c.enc v) ∧
    (∀ j : Key, j ≠ dk → lookupKey s₂.data j = lookupKey s.data j) ∧
    s₂.readFail = s.readFail ∧ s₂.writeFail = s.writeFail ∧
    s₂.deleteFail = s.deleteFail ∧ s₂.iterFail = s.iterFail := by
  obtain ⟨dk₂, hdk₂, _, _, _, hs₂⟩ :=
    insert_ok_inv validSeg stringify c m s s₂ k v prev h
  rw [hdk] at hdk₂
  injection hdk₂ with hE
  subst hE
  subst hs₂
  exact ⟨rfl, lookup_setKey_self s.data dk (c.enc v),
    fun j hj => lookup_setKey_ne s.data dk j (c.enc v) hj,
    rfl, rfl, rfl, rfl⟩

/-- C9: `insert` and `remove` are atomic on a failing first step: when the
initial read (`self.get`) fails with any error — backend or decode — the
operation returns exactly that error without issuing the subsequent write
or delete, and the backend data is entirely unchanged (its log records only
the one read). -/
theorem C9_error_atomicity {K V : Type} (validSeg : String → Bool)
    (stringify : K → String) (c : Codec V) (m : LazyMap)
    (s s₁ : Backend) (k : K) (v : V) (e : Err)
    (h : LazyMap.get validSeg stringify c m s k = some (Except.error e, s₁)) :
    LazyMap.insert validSeg stringify c m s k v = some (Except.error e, s₁) ∧
    LazyMap.remove validSeg stringify c m s k = some (Except.error e, s₁) ∧
    s₁.data = s.data ∧
    ∃ dk, get_data_key validSeg stringify m k = some dk ∧
      s₁.log = s.log ++ [Op.readOp dk] := by
  obtain ⟨dk, hdk, hr, hs₁⟩ := get_err_inv validSeg stringify c m s s₁ k e h
  exact ⟨insert_of_get_err validSeg stringify c m s s₁ k v e h,
    remove_of_get_err validSeg stringify c m s s₁ k e h,
    by rw [hs₁], ⟨dk, hdk, by rw [hs₁]⟩⟩

/-- C10: element-key derivation unwraps the fallible path pushes: when the
push an operation performs fails, that operation panics (`none`) instead of
returning an error — `get`, `insert` and `remove` panic when the element-key
derivation fails, `iter` panics when the data-prefix derivation fails (and a
data-prefix failure also fails the element-key derivation); when the pushes
succeed, no operation panics. -/
theorem C10_derivation_panics {K V : Type} (validSeg : String → Bool)
    (stringify : K → String) (c : Codec V) (m : LazyMap) (s : Backend)
    (k : K) (v : V) :
    (get_data_key validSeg stringify m k = none →
      LazyMap.get validSeg stringify c m s k = none ∧
      LazyMap.insert validSeg stringify c m s k v = none ∧
      LazyMap.remove validSeg stringify c m s k = none) ∧
    (get_data_pre validSeg m = none →
      LazyMap.iter validSeg c m s = none ∧
      get_data_key validSeg stringify m k = none) ∧
    (∀ dk, get_data_key validSeg stringify m k = some dk →
      (LazyMap.get validSeg stringify c m s k).isSome ∧
      (LazyMap.insert validSeg stringify c m s k v).isSome ∧
      (LazyMap.remove validSeg stringify c m s k).isSome) ∧
    (∀ pre, get_data_pre validSeg m = some pre →
      (LazyMap.iter validSeg c m s).isSome) := by
  refine ⟨?_, ?_, ?_, ?_⟩
  · intro hdk
    exact ⟨get_eq_none validSeg stringify c m s k hdk,
      by simp [LazyMap.insert, get_eq_none validSeg stringify c m s k hdk],
      by simp [LazyMap.remove, get_eq_none validSeg stringify c m s k hdk]⟩
  · intro hp
    constructor
    · simp [LazyMap.iter, hp]
    · simp [get_data_key, hp]
  · intro dk hdk
    refine ⟨?_, ?_, ?_⟩
    · rw [get_eq_some validSeg stringify c m s k dk hdk]
      rfl
    · simp only [LazyMap.insert, get_eq_some validSeg stringify c m s k dk hdk,
        hdk]
      cases hr : (read_key_val c s dk).1 with
      | error e => simp [hr]
      | ok p =>
        cases hw : (write_key_val c (read_key_val c s dk).2 dk v).1 with
        | error e => simp [hr, hw]
        | ok u => simp [hr, hw]
    · simp only [LazyMap.remove, get_eq_some validSeg stringify c m s k dk hdk,
        hdk]
      cases hr : (read_key_val c s dk).1 with
      | error e => simp [hr]
      | ok p =>
        cases hd : (Backend.delete (read_key_val c s dk).2 dk).1 with
        | error e => simp [hr, hd]
        | ok u => simp [hr, hd]
  · intro pre hp
    simp only [LazyMap.iter, hp]
    cases hr : (Backend.scanPre s pre).1 <;> simp [hr]

/-! Concrete witnesses. -/

/-- C1 witness: inserting `10` at `alice` into the empty backend and reading
it back yields `Some 10`. -/
theorem C1_witness :
    natCodec.dec (natCodec.enc 10) = some 10 ∧
    (LazyMap.get segOk id natCodec mW s1W "alice").map Prod.fst
      = some (Except.ok (some 10)) :=
  ⟨rfl, C1_insert_get_round_trip segOk id natCodec mW s0W s1W "alice" 10 none
    rfl rfl⟩

/-- C2 witness: the first insert at `alice` returns `None`, the second
returns `Some 10`. -/
theorem C2_witness :
    (none : Option Nat) = none ∧ (some 10 : Option Nat) = some 10 :=
  ⟨(C2_previous_value_contract segOk id natCodec mW s0W s1W s1W "alice" 10 10
      none none ⟨["root", "data", "alice"]⟩ rfl).1 rfl rfl,
   (C2_previous_value_contract segOk id natCodec mW s0W s1W s2W "alice" 10 99
      none (some 10) ⟨["root", "data", "alice"]⟩ rfl).2 rfl rfl rfl⟩

/-- C3 witness: removing the present `alice` returns `Some 10` and a further
`get` sees `None`; removing from the empty backend returns `None` and leaves
the data unchanged. -/
theorem C3_witness :
    ((some 10 : Option Nat) = some 10 ∧
      (LazyMap.get segOk id natCodec mW s3W "alice").map Prod.fst
        = some (Except.ok none)) ∧
    ((none : Option Nat) = none ∧ s8W.data = s0W.data) :=
  ⟨(C3_remove_contract segOk id natCodec mW s1W s3W "alice" 10 (some 10)).1
      rfl rfl,
   (C3_remove_contract segOk id natCodec mW s0W s8W "alice" 10 none).2
      rfl rfl⟩

/-- C4 witness: the element key of `alice` under the root `root` is
`root/data/alice`, and `get` reads exactly there. -/
theorem C4_witness :
    (⟨["root", "data", "alice"]⟩ : Key).segments
        = mW.key.segments ++ [DATA_SUBKEY, "alice"] ∧
    get_data_key segOk id mW "alice" = some ⟨["root", "data", "alice"]⟩ ∧
    LazyMap.get segOk id natCodec mW s0W "alice"
      = some (read_key_val natCodec s0W ⟨["root", "data", "alice"]⟩) := by
  have T := C4_element_key_layout segOk id natCodec mW "alice"
    ⟨["root", "data", "alice"]⟩ rfl
  exact ⟨T.1, T.2.1 "alice" rfl, T.2.2.2 s0W⟩

/-- C5 witness: the pair keys `(alice, 0)` and `(alice, 1)` differ but
render identically, so the second insert overwrites the first. -/
theorem C5_witness :
    (LazyMap.get segOk pairStr natCodec mW sP2 ("alice", 0)).map Prod.fst
      = some (Except.ok (some 99)) :=
  C5_collision_by_string_form segOk pairStr natCodec mW s0W sP1 sP2
    ("alice", 0) ("alice", 1) 10 99 none (some 10) rfl rfl rfl rfl

/-- C6 witness: after inserting `alice` and `bob`, iteration yields exactly
the two stored values as `Ok` items. -/
theorem C6_witness :
    (LazyMap.iter segOk natCodec mW s4W).map Prod.fst
      = some (Except.ok [Except.ok 10, Except.ok 20]) := by
  have T := C6_iteration_completeness segOk id natCodec mW
    ⟨["root", "data"]⟩ s0W s4W pairsW rfl rfl (by decide) rfl rfl (by decide)
  simpa [pairsW] using T

/-- C7 witness: with a decodable `alice` entry and a corrupted `bob` entry,
iteration yields one `Ok` item and one `Err` item. -/
theorem C7_witness :
    (LazyMap.iter segOk natCodec mW s5W).map Prod.fst
      = some (Except.ok [Except.ok 10, Except.error Err.decodeErr]) := by
  have T := C7_decode_failure_localized segOk natCodec mW s5W
    ⟨["root", "data"]⟩ ⟨["root", "data", "bob"]⟩ []
    [(⟨["root", "data", "alice"]⟩, [10])] [] rfl rfl rfl rfl
    (by
      intro e he
      simp at he
      subst he
      exact ⟨10, rfl⟩)
    (by intro e he; simp at he)
  simpa [decItem, natCodec] using T.1

/-- C8 witness: the successful insert of `10` at `alice` logged exactly one
read then one write at the element key, stored the encoded value there, and
left the slot of `bob` untouched. -/
theorem C8_witness :
    s1W.log = s0W.log ++ [Op.readOp ⟨["root", "data", "alice"]⟩,
      Op.writeOp ⟨["root", "data", "alice"]⟩] ∧
    lookupKey s1W.data ⟨["root", "data", "alice"]⟩ = some (natCodec.enc 10) ∧
    lookupKey s1W.data ⟨["root", "data", "bob"]⟩
      = lookupKey s0W.data ⟨["root", "data", "bob"]⟩ := by
  have T := C8_insert_side_effects segOk id natCodec mW s0W s1W "alice" 10 none
    ⟨["root", "data", "alice"]⟩ rfl rfl
  exact ⟨T.1, T.2.1, T.2.2.1 ⟨["root", "data", "bob"]⟩ (by decide)⟩

/-- C9 witness: when the backend read at `alice` fails, `insert` and
`remove` return that error and the backend data is unchanged. -/
theorem C9_witness :
    LazyMap.insert segOk id natCodec mW s6W "alice" 5
        = some (Except.error Err.backendErr, s7W) ∧
    LazyMap.remove segOk id natCodec mW s6W "alice"
        = some (Except.error Err.backendErr, s7W) ∧
    s7W.data = s6W.data := by
  have T := C9_error_atomicity segOk id natCodec mW s6W s7W "alice" 5
    Err.backendErr rfl
  exact ⟨T.1, T.2.1, T.2.2.1⟩

/-- C10 witness: a key whose string form contains the path separator makes
`get`, `insert` and `remove` panic; an invalid data segment makes `iter`
panic; with valid segments no operation panics. -/
theorem C10_witness :
    (LazyMap.get segOk id natCodec mW s0W "has/slash" = none ∧
      LazyMap.insert segOk id natCodec mW s0W "has/slash" 5 = none ∧
      LazyMap.remove segOk id natCodec mW s0W "has/slash" = none) ∧
    LazyMap.iter (fun _ => false) natCodec mW s0W = none ∧
    (LazyMap.get segOk id natCodec mW s0W "alice").isSome = true ∧
    (LazyMap.iter segOk natCodec mW s0W).isSome = true := by
  have T₁ := C10_derivation_panics segOk id natCodec mW s0W "has/slash" 5
  have T₂ := C10_derivation_panics (fun _ => false) id natCodec mW s0W "x"
    (0 : Nat)
  have T₃ := C10_derivation_panics segOk id natCodec mW s0W "alice" 5
  exact ⟨T₁.1 rfl, (T₂.2.1 rfl).1,
    (T₃.2.2.1 ⟨["root", "data", "alice"]⟩ rfl).1,
    T₃.2.2.2 ⟨["root", "data"]⟩ rfl⟩

end LazyMapVerif
